import Mathlib

/-
Verification development for the nitrate/cancer spatial-analysis backend.

The Python sources (backend/src/idw_preview.py, backend/src/tract_nitrate_table.py,
backend/src/regression_preview.py, backend/src/pipeline.py, backend/app.py) are
shallowly embedded below.  Python float arithmetic is modelled by exact rationals
(and by real numbers where the IDW power function needs real exponents); machine
integers by ℤ/ℕ; filesystem and process effects by explicit state passing or by
small labelled transition systems.
-/

/-! ## Grid construction (idw_preview.py, build_grid, lines 64-74) -/

structure GridOut where
  minx : ℚ
  miny : ℚ
  maxx : ℚ
  maxy : ℚ
  ncols : ℤ
  nrows : ℤ
  deriving Repr, DecidableEq

/-- Translation of `build_grid(bounds, cell)` from idw_preview.py:
`ncols = int(math.ceil(width / cell))`, `nrows = int(math.ceil(height / cell))`,
`maxx2 = minx + ncols * cell`, `maxy2 = miny + nrows * cell`. -/
def build_grid (minx miny maxx maxy cell : ℚ) : GridOut :=
  let width := maxx - minx
  let height := maxy - miny
  let ncols : ℤ := ⌈width / cell⌉
  let nrows : ℤ := ⌈height / cell⌉
  { minx := minx
    miny := miny
    maxx := minx + ncols * cell
    maxy := miny + nrows * cell
    ncols := ncols
    nrows := nrows }

/-- Claim C7: for every requested extent and positive cell size, the derived grid
has `cols = ceil(width/cell)` and `rows = ceil(height/cell)`, the grid is expanded
outward to an exact multiple of the cell size and never shrunk
(`minx + cols*cell ≥ maxx`, `final maxy − rows*cell ≤ miny`), and the expanded
`maxx`/`maxy` are each within one cell size of the requested extent. -/
theorem build_grid_expansion (minx miny maxx maxy cell : ℚ) (hc : 0 < cell) :
    (build_grid minx miny maxx maxy cell).ncols = ⌈(maxx - minx) / cell⌉ ∧
    (build_grid minx miny maxx maxy cell).nrows = ⌈(maxy - miny) / cell⌉ ∧
    maxx ≤ (build_grid minx miny maxx maxy cell).minx +
      (build_grid minx miny maxx maxy cell).ncols * cell ∧
    (build_grid minx miny maxx maxy cell).maxy -
      (build_grid minx miny maxx maxy cell).nrows * cell ≤ miny ∧
    maxx ≤ (build_grid minx miny maxx maxy cell).maxx ∧
    (build_grid minx miny maxx maxy cell).maxx < maxx + cell ∧
    maxy ≤ (build_grid minx miny maxx maxy cell).maxy ∧
    (build_grid minx miny maxx maxy cell).maxy < maxy + cell := by
  have hne : cell ≠ 0 := ne_of_gt hc
  have hle1 : (maxx - minx) / cell ≤ (⌈(maxx - minx) / cell⌉ : ℚ) :=
    Int.le_ceil _
  have hlt1 : (⌈(maxx - minx) / cell⌉ : ℚ) < (maxx - minx) / cell + 1 :=
    Int.ceil_lt_add_one _
  have hle2 : (maxy - miny) / cell ≤ (⌈(maxy - miny) / cell⌉ : ℚ) :=
    Int.le_ceil _
  have hlt2 : (⌈(maxy - miny) / cell⌉ : ℚ) < (maxy - miny) / cell + 1 :=
    Int.ceil_lt_add_one _
  have hmul1 : maxx - minx ≤ (⌈(maxx - minx) / cell⌉ : ℚ) * cell := by
    have := mul_le_mul_of_nonneg_right hle1 (le_of_lt hc)
    rwa [div_mul_cancel₀ _ hne] at this
  have hmul1b : (⌈(maxx - minx) / cell⌉ : ℚ) * cell < maxx - minx + cell := by
    have := mul_lt_mul_of_pos_right hlt1 hc
    rwa [add_mul, one_mul, div_mul_cancel₀ _ hne] at this
  have hmul2 : maxy - miny ≤ (⌈(maxy - miny) / cell⌉ : ℚ) * cell := by
    have := mul_le_mul_of_nonneg_right hle2 (le_of_lt hc)
    rwa [div_mul_cancel₀ _ hne] at this
  have hmul2b : (⌈(maxy - miny) / cell⌉ : ℚ) * cell < maxy - miny + cell := by
    have := mul_lt_mul_of_pos_right hlt2 hc
    rwa [add_mul, one_mul, div_mul_cancel₀ _ hne] at this
  refine ⟨rfl, rfl, ?_, ?_, ?_, ?_, ?_, ?_⟩ <;>
    simp only [build_grid] <;> linarith

/-- Concrete witness for `build_grid_expansion` at the spec scenario extent
(0,0)-(100,100) with cell size 50. -/
theorem build_grid_expansion_witness :
    (0 : ℚ) < 50 ∧
    ((build_grid 0 0 100 100 50).ncols = ⌈((100 : ℚ) - 0) / 50⌉ ∧
     (build_grid 0 0 100 100 50).nrows = ⌈((100 : ℚ) - 0) / 50⌉ ∧
     (100 : ℚ) ≤ (build_grid 0 0 100 100 50).minx +
       (build_grid 0 0 100 100 50).ncols * 50 ∧
     (build_grid 0 0 100 100 50).maxy -
       (build_grid 0 0 100 100 50).nrows * 50 ≤ 0 ∧
     (100 : ℚ) ≤ (build_grid 0 0 100 100 50).maxx ∧
     (build_grid 0 0 100 100 50).maxx < 100 + 50 ∧
     (100 : ℚ) ≤ (build_grid 0 0 100 100 50).maxy ∧
     (build_grid 0 0 100 100 50).maxy < 100 + 50) :=
  ⟨by norm_num, build_grid_expansion 0 0 100 100 50 (by norm_num)⟩

/-! ## Cache key encoding (pipeline.py `_k_tag` and artifact path helpers;
idw_preview.py lines 183-184) -/

/-- Little-endian decimal digits of `n` (fuel-based model of the decimal
rendering an f-string performs on a non-negative integer). -/
def natDigitsAux : ℕ → ℕ → List ℕ
  | 0, _ => []
  | fuel + 1, n => if n = 0 then [] else n % 10 :: natDigitsAux fuel (n / 10)

/-- Decimal character rendering of a natural number, as `f"{n}"` produces. -/
def natChars (n : ℕ) : List Char :=
  if n = 0 then ['0'] else ((natDigitsAux n n).map Nat.digitChar).reverse

/-- Value of a little-endian digit list. -/
def digitsVal : List ℕ → ℕ
  | [] => 0
  | d :: rest => d + 10 * digitsVal rest

/-- Python `int()` applied to a numeric value: truncation toward zero. -/
def pyTrunc (q : ℚ) : ℤ := if 0 ≤ q then q.floor else q.ceil

/-- Decimal character rendering of an integer, as `f"{z}"` produces. -/
def intChars (z : ℤ) : List Char :=
  if z < 0 then '-' :: natChars z.natAbs else natChars z.toNat

/-- Fractional decimal digits of `q` (expected `0 ≤ q < 1`), fuel-bounded;
models the digits Python `str()` prints after the decimal point for a float
whose value has a finite decimal expansion. -/
def fracChars : ℕ → ℚ → List Char
  | 0, _ => []
  | fuel + 1, q =>
    if q = 0 then []
    else Nat.digitChar (q * 10).floor.toNat ::
      fracChars fuel (q * 10 - ((q * 10).floor : ℚ))

/-- Model of Python `str(k)` for a float `k` with finite decimal expansion:
optional sign, integer part, `'.'`, then the fractional digits (Python always
prints at least one fractional digit for a float, e.g. `str(2.0) = "2.0"`). -/
def pyFloatChars (q : ℚ) : List Char :=
  let m := if q < 0 then -q else q
  let ip := natChars m.floor.toNat
  let fp := fracChars 20 (m - (m.floor : ℚ))
  (if q < 0 then ['-'] else []) ++ ip ++ '.' :: (if fp.isEmpty then ['0'] else fp)

/-- Translation of `_k_tag(k)` from pipeline.py: `str(k).replace(".", "p")`
(the single-character replace is modelled as a character map). -/
def kTagChars (k : ℚ) : List Char :=
  (pyFloatChars k).map (fun c => if c = '.' then 'p' else c)

/-- Translation of the raster artifact file name
`f"idw_k{k_tag}_cs{int(cell)}m_knn{knn}.tif"` (idw_preview.py line 184; the
same three tokens name every other artifact kind in pipeline.py). -/
def tifChars (k cell : ℚ) (knn : ℕ) : List Char :=
  'i' :: 'd' :: 'w' :: '_' :: 'k' ::
    (kTagChars k ++ '_' :: 'c' :: 's' ::
      (intChars (pyTrunc cell) ++ 'm' :: '_' :: 'k' :: 'n' :: 'n' ::
        (natChars knn ++ '.' :: 't' :: 'i' :: 'f' :: [])))

/-- The artifact file name as a string. -/
def tifName (k cell : ℚ) (knn : ℕ) : String := String.mk (tifChars k cell knn)

/-- Every digit produced by `natDigitsAux` is below 10. -/
theorem natDigitsAux_lt {fuel n d : ℕ} (h : d ∈ natDigitsAux fuel n) : d < 10 := by
  induction fuel generalizing n with
  | zero => simp [natDigitsAux] at h
  | succ fuel ih =>
    by_cases h0 : n = 0
    · simp [natDigitsAux, h0] at h
    · simp only [natDigitsAux, h0, if_false, List.mem_cons] at h
      rcases h with h | h
      · omega
      · exact ih h

/-- The digit rendering round-trips: `natDigitsAux` with enough fuel recovers `n`. -/
theorem natDigitsAux_val : ∀ fuel n, n ≤ fuel → digitsVal (natDigitsAux fuel n) = n := by
  intro fuel
  induction fuel with
  | zero => intro n hn; interval_cases n; simp [natDigitsAux, digitsVal]
  | succ fuel ih =>
    intro n hn
    by_cases h0 : n = 0
    · simp [natDigitsAux, h0, digitsVal]
    · have hdiv : n / 10 < n := Nat.div_lt_self (Nat.pos_of_ne_zero h0) (by norm_num)
      have : n / 10 ≤ fuel := by omega
      simp only [natDigitsAux, h0, if_false, digitsVal, ih _ this]
      omega

/-- Decimal digit characters are injective below 10 (on `Fin 10`). -/
theorem digitChar_fin_inj :
    ∀ a b : Fin 10, Nat.digitChar a.val = Nat.digitChar b.val → a = b := by decide

/-- Decimal digit characters are injective below 10. -/
theorem digitChar_inj_lt {a b : ℕ} (ha : a < 10) (hb : b < 10)
    (h : Nat.digitChar a = Nat.digitChar b) : a = b := by
  have := digitChar_fin_inj ⟨a, ha⟩ ⟨b, hb⟩ h
  simpa using congrArg Fin.val this

/-- Decimal digit characters are digits (on `Fin 10`). -/
theorem digitChar_fin_isDigit : ∀ a : Fin 10, (Nat.digitChar a.val).isDigit = true := by
  decide

/-- Mapping `Nat.digitChar` over lists of digits below 10 is injective. -/
theorem map_digitChar_inj :
    ∀ l₁ l₂ : List ℕ, (∀ d ∈ l₁, d < 10) → (∀ d ∈ l₂, d < 10) →
      l₁.map Nat.digitChar = l₂.map Nat.digitChar → l₁ = l₂ := by
  intro l₁
  induction l₁ with
  | nil =>
    intro l₂ _ _ h
    cases l₂ with
    | nil => rfl
    | cons y t => simp at h
  | cons x t ih =>
    intro l₂ h₁ h₂ h
    cases l₂ with
    | nil => simp at h
    | cons y u =>
      simp only [List.map_cons, List.cons.injEq] at h
      have hx := h₁ x (by simp)
      have hy := h₂ y (by simp)
      have : x = y := digitChar_inj_lt hx hy h.1
      rw [this, ih u (fun d hd => h₁ d (by simp [hd])) (fun d hd => h₂ d (by simp [hd])) h.2]

/-- The decimal rendering of a natural number is injective. -/
theorem natChars_inj {n₁ n₂ : ℕ} (h : natChars n₁ = natChars n₂) : n₁ = n₂ := by
  by_cases h₁ : n₁ = 0 <;> by_cases h₂ : n₂ = 0
  · omega
  · exfalso
    simp only [natChars, h₁, h₂, if_true, if_false] at h
    have := map_digitChar_inj [0] ((natDigitsAux n₂ n₂).reverse)
      (by intro d hd; simp at hd; omega)
      (by intro d hd; simp at hd; exact natDigitsAux_lt hd)
      (by simpa [List.map_reverse] using h)
    have hval := natDigitsAux_val n₂ n₂ le_rfl
    have : natDigitsAux n₂ n₂ = [0] := by
      have := this.symm
      rw [List.reverse_eq_iff] at this
      simpa using this
    rw [this] at hval
    simp [digitsVal] at hval
    omega
  · exfalso
    simp only [natChars, h₁, h₂, if_true, if_false] at h
    have := map_digitChar_inj ((natDigitsAux n₁ n₁).reverse) [0]
      (by intro d hd; simp at hd; exact natDigitsAux_lt hd)
      (by intro d hd; simp at hd; omega)
      (by simpa [List.map_reverse] using h)
    have hval := natDigitsAux_val n₁ n₁ le_rfl
    have : natDigitsAux n₁ n₁ = [0] := by
      rw [List.reverse_eq_iff] at this
      simpa using this
    rw [this] at hval
    simp [digitsVal] at hval
    omega
  · simp only [natChars, h₁, h₂, if_false] at h
    have := map_digitChar_inj (natDigitsAux n₁ n₁) (natDigitsAux n₂ n₂)
      (fun d hd => natDigitsAux_lt hd)
      (fun d hd => natDigitsAux_lt hd)
      (by
        have := congrArg List.reverse h
        simpa [List.map_reverse] using this)
    have v₁ := natDigitsAux_val n₁ n₁ le_rfl
    have v₂ := natDigitsAux_val n₂ n₂ le_rfl
    rw [this] at v₁
    omega

/-- Every character of `natChars n` is a digit. -/
theorem natChars_isDigit {n : ℕ} : ∀ c ∈ natChars n, c.isDigit = true := by
  intro c hc
  by_cases h0 : n = 0
  · simp [natChars, h0] at hc
    rw [hc]
    decide
  · simp only [natChars, h0, if_false, List.mem_reverse, List.mem_map] at hc
    obtain ⟨d, hd, rfl⟩ := hc
    exact digitChar_fin_isDigit ⟨d, natDigitsAux_lt hd⟩

/-- Splitting a character list at the first non-digit is unambiguous: a run of
digit characters followed by a non-digit determines both parts. -/
theorem digit_run_split :
    ∀ (d₁ d₂ r₁ r₂ : List Char) (c₁ c₂ : Char),
      (∀ c ∈ d₁, c.isDigit = true) → (∀ c ∈ d₂, c.isDigit = true) →
      c₁.isDigit = false → c₂.isDigit = false →
      d₁ ++ c₁ :: r₁ = d₂ ++ c₂ :: r₂ → d₁ = d₂ ∧ c₁ = c₂ ∧ r₁ = r₂ := by
  intro d₁
  induction d₁ with
  | nil =>
    intro d₂ r₁ r₂ c₁ c₂ h₁ h₂ hc₁ hc₂ heq
    cases d₂ with
    | nil =>
      simp only [List.nil_append, List.cons.injEq] at heq
      exact ⟨rfl, heq.1, heq.2⟩
    | cons y t =>
      simp only [List.nil_append, List.cons_append, List.cons.injEq] at heq
      have hy := h₂ y (by simp)
      rw [heq.1] at hc₁
      rw [hy] at hc₁
      exact absurd hc₁ (by simp)
  | cons x t ih =>
    intro d₂ r₁ r₂ c₁ c₂ h₁ h₂ hc₁ hc₂ heq
    cases d₂ with
    | nil =>
      simp only [List.cons_append, List.nil_append, List.cons.injEq] at heq
      have hx := h₁ x (by simp)
      rw [← heq.1] at hc₂
      rw [hx] at hc₂
      exact absurd hc₂ (by simp)
    | cons y u =>
      simp only [List.cons_append, List.cons.injEq] at heq
      obtain ⟨hxy, hrest⟩ := heq
      obtain ⟨hd, hc, hr⟩ := ih u r₁ r₂ c₁ c₂
        (fun c hc => h₁ c (by simp [hc])) (fun c hc => h₂ c (by simp [hc])) hc₁ hc₂ hrest
      exact ⟨by rw [hxy, hd], hc, hr⟩

/-- Claim C10 counterexample: the parameter tuples `(k=2, cell=500, knn=12)` and
`(k=2, cell=500.5, knn=12)` are distinct, yet their encoded artifact file names
coincide, because the cell-size token truncates the cell size to an integer. -/
theorem tifName_collision :
    ((2 : ℚ), (500 : ℚ), (12 : ℕ)) ≠ ((2 : ℚ), (1001 / 2 : ℚ), (12 : ℕ)) ∧
    tifName 2 500 12 = tifName 2 (1001 / 2) 12 := by
  have hfl : ∀ q : ℚ, 0 ≤ q → pyTrunc q = ⌊q⌋ := by
    intro q hq
    rw [pyTrunc, if_pos hq, Rat.floor_def', ← Rat.floor_def]
  have h500 : pyTrunc (1001 / 2 : ℚ) = pyTrunc 500 := by
    rw [hfl _ (by norm_num), hfl _ (by norm_num)]
    rw [show (⌊(1001 / 2 : ℚ)⌋ : ℤ) = 500 by
          rw [Int.floor_eq_iff] <;> norm_num,
        show (⌊(500 : ℚ)⌋ : ℤ) = 500 by
          rw [Int.floor_eq_iff] <;> norm_num]
  constructor
  · intro h
    have : (500 : ℚ) = 1001 / 2 := congrArg (fun p => p.2.1) h
    norm_num at this
  · unfold tifName tifChars
    rw [h500]

/-- Python `int()` agrees with the floor on non-negative values. -/
theorem pyTrunc_eq_floor (q : ℚ) (hq : 0 ≤ q) : pyTrunc q = ⌊q⌋ := by
  rw [pyTrunc, if_pos hq, Rat.floor_def', ← Rat.floor_def]

/-- Claim C10 (amended): for a fixed decay exponent and positive cell sizes, two
parameter tuples produce the same encoded artifact file name exactly when their
truncated cell sizes and neighbor counts agree — the encoding is deterministic
and collision-free in the truncated cell token and the neighbor-count token, but
cell sizes differing only in their fractional part collide. -/
theorem tifName_eq_iff (k c₁ c₂ : ℚ) (n₁ n₂ : ℕ) (h₁ : 0 < c₁) (h₂ : 0 < c₂) :
    tifName k c₁ n₁ = tifName k c₂ n₂ ↔ pyTrunc c₁ = pyTrunc c₂ ∧ n₁ = n₂ := by
  have hn₁ : 0 ≤ pyTrunc c₁ := by
    rw [pyTrunc_eq_floor c₁ h₁.le]
    exact Int.floor_nonneg.mpr h₁.le
  have hn₂ : 0 ≤ pyTrunc c₂ := by
    rw [pyTrunc_eq_floor c₂ h₂.le]
    exact Int.floor_nonneg.mpr h₂.le
  have hic₁ : intChars (pyTrunc c₁) = natChars (pyTrunc c₁).toNat := by
    rw [intChars, if_neg (not_lt.mpr hn₁)]
  have hic₂ : intChars (pyTrunc c₂) = natChars (pyTrunc c₂).toNat := by
    rw [intChars, if_neg (not_lt.mpr hn₂)]
  constructor
  · intro h
    have hlist : tifChars k c₁ n₁ = tifChars k c₂ n₂ := congrArg String.data h
    simp only [tifChars, List.cons.injEq, true_and] at hlist
    have hl2 := List.append_cancel_left hlist
    simp only [List.cons.injEq, true_and] at hl2
    rw [hic₁, hic₂] at hl2
    obtain ⟨hd, -, hr⟩ := digit_run_split _ _ _ _ _ _
      (fun c hc => natChars_isDigit c hc) (fun c hc => natChars_isDigit c hc)
      (by decide) (by decide) hl2
    have htn : (pyTrunc c₁).toNat = (pyTrunc c₂).toNat := natChars_inj hd
    have hcc : pyTrunc c₁ = pyTrunc c₂ := by
      rw [← Int.toNat_of_nonneg hn₁, ← Int.toNat_of_nonneg hn₂, htn]
    simp only [List.cons.injEq, true_and] at hr
    obtain ⟨hd2, -, -⟩ := digit_run_split _ _ _ _ _ _
      (fun c hc => natChars_isDigit c hc) (fun c hc => natChars_isDigit c hc)
      (by decide) (by decide) hr
    exact ⟨hcc, natChars_inj hd2⟩
  · rintro ⟨hc, hn⟩
    unfold tifName tifChars
    rw [hc, hn]

/-- Concrete witness for `tifName_eq_iff` at `(k=2, cell=500, knn=12)` versus
`(k=2, cell=500.5, knn=12)`. -/
theorem tifName_eq_iff_witness :
    (0 : ℚ) < 500 ∧ (0 : ℚ) < 1001 / 2 ∧
    (tifName 2 500 12 = tifName 2 (1001 / 2) 12 ↔
      pyTrunc 500 = pyTrunc (1001 / 2) ∧ (12 : ℕ) = 12) :=
  ⟨by norm_num, by norm_num,
    tifName_eq_iff 2 500 (1001 / 2) 12 12 (by norm_num) (by norm_num)⟩

/-! ## IDW interpolation (idw_preview.py, idw_block, lines 77-120) -/

/-- A sample point position in the planar analysis coordinate system (meters). -/
abbrev Pt : Type := ℝ × ℝ

/-- Euclidean distance between two planar points, as the spatial index reports. -/
noncomputable def ptDist (a b : Pt) : ℝ :=
  Real.sqrt ((a.1 - b.1) ^ 2 + (a.2 - b.2) ^ 2)

/-- Row-wise translation of `idw_block`: given the (distance, value) pairs of the
`knn` retrieved neighbors of one query point, in the order the spatial index
returned them, produce the predicted value.  If some distance is zero the value
of the first such neighbor is returned unchanged (`first_hit_col = argmax of the
hit mask`); otherwise weights `w = 1 / d ** power` give `Σ(w·v) / Σw`. -/
noncomputable def firstHitVal : List (ℝ × ℝ) → Option ℝ
  | [] => none
  | p :: rest => if p.1 = 0 then some p.2 else firstHitVal rest

/-- The IDW prediction for one row of `idw_block` (see `firstHitVal`). -/
noncomputable def idwRow (power : ℝ) (pairs : List (ℝ × ℝ)) : ℝ :=
  match firstHitVal pairs with
  | some v => v
  | none =>
    ((pairs.map fun p => 1 / p.1 ^ power * p.2).sum) /
      ((pairs.map fun p => 1 / p.1 ^ power).sum)

/-- Contract of the bulk nearest-neighbor query (`tree.query(xy, k=knn)` on the
`cKDTree` of sample positions; spec section 4.1): the result lists the nearest
`knn` sample indices with their Euclidean distances, sorted by increasing
distance with ties broken by lowest sample index, clamped to the number of
samples.  `complete` states that every omitted sample is no nearer (in the same
tie-broken order) than every returned one. -/
structure IsKnnResult (samples : List (Pt × ℝ)) (q : Pt) (knn : ℕ)
    (nbrs : List (ℕ × ℝ)) : Prop where
  len : nbrs.length = min knn samples.length
  idx_lt : ∀ x ∈ nbrs, x.1 < samples.length
  dist_eq : ∀ x ∈ nbrs, x.2 = ptDist q (samples.getD x.1 ((0, 0), 0)).1
  idx_nodup : (nbrs.map Prod.fst).Nodup
  sorted : nbrs.Pairwise fun a b => a.2 < b.2 ∨ (a.2 = b.2 ∧ a.1 < b.1)
  complete : ∀ j, j < samples.length → j ∉ nbrs.map Prod.fst →
    ∀ x ∈ nbrs, x.2 < ptDist q (samples.getD j ((0, 0), 0)).1 ∨
      (x.2 = ptDist q (samples.getD j ((0, 0), 0)).1 ∧ x.1 < j)

/-- Prediction of `idw_block` at one query point: the neighbor list is turned
into (distance, value) rows (`neigh_vals = values[idx]`) and fed to `idwRow`. -/
noncomputable def idwPoint (power : ℝ) (samples : List (Pt × ℝ))
    (nbrs : List (ℕ × ℝ)) : ℝ :=
  idwRow power (nbrs.map fun x => (x.2, (samples.getD x.1 ((0, 0), 0)).2))

/-- Distances are nonnegative. -/
theorem ptDist_nonneg (a b : Pt) : 0 ≤ ptDist a b := Real.sqrt_nonneg _

/-- Distance zero characterizes coincident points. -/
theorem ptDist_eq_zero_iff (a b : Pt) : ptDist a b = 0 ↔ a = b := by
  unfold ptDist
  rw [Real.sqrt_eq_zero (by positivity)]
  constructor
  · intro h
    have h1 : (a.1 - b.1) ^ 2 = 0 := by nlinarith [sq_nonneg (a.1 - b.1), sq_nonneg (a.2 - b.2)]
    have h2 : (a.2 - b.2) ^ 2 = 0 := by nlinarith [sq_nonneg (a.1 - b.1), sq_nonneg (a.2 - b.2)]
    have e1 : a.1 = b.1 := by nlinarith [sq_nonneg (a.1 - b.1)]
    have e2 : a.2 = b.2 := by nlinarith [sq_nonneg (a.2 - b.2)]
    exact Prod.ext e1 e2
  · rintro rfl
    ring_nf

/-- Claim C2: for every query point whose nearest-neighbor distance list contains
a zero distance (the query coincides with a sample position), the interpolated
value is that sample's value exactly — a passthrough, not an IDW blend — with
ties among coincident samples broken by lowest sample index, regardless of the
decay exponent and of `knn`. -/
theorem idw_exact_hit (power : ℝ) (samples : List (Pt × ℝ)) (q : Pt) (knn : ℕ)
    (nbrs : List (ℕ × ℝ)) (hknn : 1 ≤ knn)
    (hres : IsKnnResult samples q knn nbrs)
    (hex : ∃ j, j < samples.length ∧ (samples.getD j ((0, 0), 0)).1 = q) :
    idwPoint power samples nbrs = (samples.getD (Nat.find hex) ((0, 0), 0)).2 := by
  classical
  have hspec := Nat.find_spec hex
  have hd₀ : ptDist q (samples.getD (Nat.find hex) ((0, 0), 0)).1 = 0 := by
    rw [hspec.2]
    exact (ptDist_eq_zero_iff q q).mpr rfl
  have hne : nbrs ≠ [] := by
    intro h
    have hl := hres.len
    rw [h] at hl
    simp at hl
    omega
  obtain ⟨hd, tl, rfl⟩ := List.exists_cons_of_ne_nil hne
  have hhd_mem : hd ∈ hd :: tl := List.mem_cons_self hd tl
  have hhd_dist := hres.dist_eq hd hhd_mem
  have hhd_lt := hres.idx_lt hd hhd_mem
  have hhd_nonneg : 0 ≤ hd.2 := hhd_dist ▸ ptDist_nonneg _ _
  have hfinal : hd.1 = Nat.find hex ∧ hd.2 = 0 := by
    by_cases hmem : Nat.find hex ∈ (hd :: tl).map Prod.fst
    · obtain ⟨x, hx_mem, hx1⟩ := List.mem_map.mp hmem
      have hx2 : x.2 = 0 := by
        rw [hres.dist_eq x hx_mem, hx1, hd₀]
      rcases List.mem_cons.mp hx_mem with hxhd | hxtl
      · rw [← hxhd]
        exact ⟨hx1, hx2⟩
      · have hR := (List.pairwise_cons.mp hres.sorted).1 x hxtl
        rcases hR with h | ⟨h2eq, h1lt⟩
        · exfalso
          rw [hx2] at h
          linarith
        · exfalso
          have hd2 : hd.2 = 0 := h2eq.trans hx2
          have hcoin : (samples.getD hd.1 ((0, 0), 0)).1 = q := by
            have hz : ptDist q (samples.getD hd.1 ((0, 0), 0)).1 = 0 := by
              rw [← hhd_dist]
              exact hd2
            exact ((ptDist_eq_zero_iff _ _).mp hz).symm
          have hle : Nat.find hex ≤ hd.1 := Nat.find_min' hex ⟨hhd_lt, hcoin⟩
          rw [hx1] at h1lt
          omega
    · have hcomp := hres.complete (Nat.find hex) hspec.1 hmem hd hhd_mem
      rw [hd₀] at hcomp
      rcases hcomp with h | ⟨h2, h1⟩
      · exfalso
        linarith
      · exfalso
        have hcoin : (samples.getD hd.1 ((0, 0), 0)).1 = q := by
          have hz : ptDist q (samples.getD hd.1 ((0, 0), 0)).1 = 0 := by
            rw [← hhd_dist]
            exact h2
          exact ((ptDist_eq_zero_iff _ _).mp hz).symm
        exact Nat.find_min hex h1 ⟨hhd_lt, hcoin⟩
  obtain ⟨h1, h2⟩ := hfinal
  unfold idwPoint idwRow
  rw [List.map_cons]
  simp [firstHitVal, h2, h1]

/-- Concrete witness for `idw_exact_hit`: query (0,0) coincides with sample 0
(value 10) among two samples; the prediction is exactly 10. -/
theorem idw_exact_hit_witness :
    (1 : ℕ) ≤ 2 ∧
    idwPoint 2 [(((0 : ℝ), (0 : ℝ)), (10 : ℝ)), (((1 : ℝ), (0 : ℝ)), (20 : ℝ))]
      [(0, 0), (1, 1)] = 10 := by
  classical
  refine ⟨by norm_num, ?_⟩
  have hex : ∃ j, j < ([((((0 : ℝ)), (0 : ℝ)), (10 : ℝ)),
      (((1 : ℝ), (0 : ℝ)), (20 : ℝ))]).length ∧
      (([(((0 : ℝ), (0 : ℝ)), (10 : ℝ)),
        (((1 : ℝ), (0 : ℝ)), (20 : ℝ))]).getD j ((0, 0), 0)).1 = ((0 : ℝ), (0 : ℝ)) :=
    ⟨0, by simp, rfl⟩
  have hres : IsKnnResult
      [(((0 : ℝ), (0 : ℝ)), (10 : ℝ)), (((1 : ℝ), (0 : ℝ)), (20 : ℝ))]
      ((0 : ℝ), (0 : ℝ)) 2 [(0, 0), (1, 1)] := by
    refine ⟨by simp, ?_, ?_, by simp, ?_, ?_⟩
    · intro x hx
      simp only [List.mem_cons, List.not_mem_nil, or_false] at hx
      rcases hx with rfl | rfl <;> simp
    · intro x hx
      simp only [List.mem_cons, List.not_mem_nil, or_false] at hx
      rcases hx with rfl | rfl
      · simp [ptDist]
      · norm_num [ptDist]
    · refine List.pairwise_cons.mpr ⟨?_, by simp⟩
      intro x hx
      simp only [List.mem_cons, List.not_mem_nil, or_false] at hx
      subst hx
      left
      norm_num
    · intro j hj hjmem x hx
      exfalso
      simp only [List.length_cons, List.length_nil] at hj
      interval_cases j <;> simp at hjmem
  have h := idw_exact_hit 2
    [(((0 : ℝ), (0 : ℝ)), (10 : ℝ)), (((1 : ℝ), (0 : ℝ)), (20 : ℝ))]
    ((0 : ℝ), (0 : ℝ)) 2 [(0, 0), (1, 1)] (by norm_num) hres hex
  have hf : Nat.find hex = 0 := (Nat.find_eq_zero hex).mpr ⟨by simp, rfl⟩
  rw [hf] at h
  exact h

/-- Auxiliary: no hit row when every distance is nonzero. -/
theorem firstHitVal_none (pairs : List (ℝ × ℝ)) (h : ∀ p ∈ pairs, p.1 ≠ 0) :
    firstHitVal pairs = none := by
  induction pairs with
  | nil => rfl
  | cons p rest ih =>
    simp only [firstHitVal]
    rw [if_neg (h p (List.mem_cons_self p rest))]
    exact ih fun x hx => h x (List.mem_cons_of_mem p hx)

/-- Claim C3: for every query point whose retrieved nearest-neighbor distances
are all strictly positive, the interpolated value equals
`Σ(w_i * v_i) / Σ(w_i)` with `w_i = 1 / d_i ^ k` over those `knn` nearest
samples (exact equality in the real-number model; float tolerance in the spec). -/
theorem idw_weighted_blend (power : ℝ) (samples : List (Pt × ℝ)) (q : Pt)
    (knn : ℕ) (nbrs : List (ℕ × ℝ))
    (hres : IsKnnResult samples q knn nbrs)
    (hpos : ∀ x ∈ nbrs, 0 < x.2) :
    idwPoint power samples nbrs =
      ((nbrs.map fun x => 1 / x.2 ^ power * (samples.getD x.1 ((0, 0), 0)).2).sum) /
        ((nbrs.map fun x => 1 / x.2 ^ power).sum) := by
  unfold idwPoint idwRow
  have hnone : firstHitVal
      (nbrs.map fun x => (x.2, (samples.getD x.1 ((0, 0), 0)).2)) = none := by
    apply firstHitVal_none
    intro p hp
    obtain ⟨x, hx, rfl⟩ := List.mem_map.mp hp
    exact ne_of_gt (hpos x hx)
  rw [hnone]
  simp only [List.map_map]
  rfl

/-- Concrete witness for `idw_weighted_blend`: one sample at distance 1 from the
query; all distances positive, and the prediction equals the weighted formula. -/
theorem idw_weighted_blend_witness :
    ((0 : ℝ) < 1) ∧
    idwPoint 2 [(((0 : ℝ), (0 : ℝ)), (10 : ℝ))] [(0, 1)] =
      (([((0 : ℕ), (1 : ℝ))].map fun x =>
          1 / x.2 ^ (2 : ℝ) *
            (([(((0 : ℝ), (0 : ℝ)), (10 : ℝ))].getD x.1 ((0, 0), 0)).2)).sum) /
        (([((0 : ℕ), (1 : ℝ))].map fun x => 1 / x.2 ^ (2 : ℝ)).sum) := by
  refine ⟨by norm_num, ?_⟩
  have hres : IsKnnResult [(((0 : ℝ), (0 : ℝ)), (10 : ℝ))] ((1 : ℝ), (0 : ℝ)) 1
      [(0, 1)] := by
    refine ⟨by simp, ?_, ?_, by simp, ?_, ?_⟩
    · intro x hx
      simp only [List.mem_cons, List.not_mem_nil, or_false] at hx
      subst hx
      simp
    · intro x hx
      simp only [List.mem_cons, List.not_mem_nil, or_false] at hx
      subst hx
      norm_num [ptDist]
    · simp
    · intro j hj hjmem x hx
      exfalso
      simp only [List.length_cons, List.length_nil] at hj
      interval_cases j <;> simp at hjmem
  exact idw_weighted_blend 2 [(((0 : ℝ), (0 : ℝ)), (10 : ℝ))] ((1 : ℝ), (0 : ℝ)) 1
    [(0, 1)] hres (by intro x hx; simp only [List.mem_cons, List.not_mem_nil,
      or_false] at hx; subst hx; norm_num)

/-! ## Artifact publication (pipeline.py ensure_idw_outputs lines 101-180;
tract_nitrate_table.py line 166; regression_preview.py lines 110-118) -/

/-- A filesystem write operation performed while producing an artifact. -/
inductive FsOp where
  | writeFile (path : String)
  | replace (src dst : String)
  deriving DecidableEq, Repr

/-- Operations performed to produce the preview PNG artifact
(pipeline.py lines 176-180): `img.save(tmp)` with `tmp = png_out.with_suffix(".tmp")`
followed by `os.replace(tmp, png_out)`; the artifact path is `stem + ".png"`. -/
def pngWriteOps (stem : String) : List FsOp :=
  [FsOp.writeFile (stem ++ ".tmp"), FsOp.replace (stem ++ ".tmp") (stem ++ ".png")]

/-- Operations performed to produce the metadata artifact
(pipeline.py lines 123-127): `meta_out.write_text(...)` directly at the final path. -/
def metaWriteOps (path : String) : List FsOp := [FsOp.writeFile path]

/-- Operations performed to produce the region (tract) table artifact
(tract_nitrate_table.py line 166): `tracts[...].to_csv(out_csv)` directly at the
final path. -/
def csvWriteOps (path : String) : List FsOp := [FsOp.writeFile path]

/-- Operations performed to produce the regression summary artifact
(regression_preview.py line 110): `out_json.write_text(...)` directly at the
final path. -/
def regWriteOps (path : String) : List FsOp := [FsOp.writeFile path]

/-- Operations performed to produce the raster artifact when the standalone IDW
script publishes into the cache (idw_preview.py line 223):
`rasterio.open(out_path, "w", ...)` writes directly at the final path. -/
def rasterWriteOps (path : String) : List FsOp := [FsOp.writeFile path]

/-- An artifact at `dst` is published atomically when no write ever targets the
final path directly and the final path becomes visible only through a rename
from a distinct temporary path. -/
def publishedAtomically (ops : List FsOp) (dst : String) : Prop :=
  FsOp.writeFile dst ∉ ops ∧ ∃ src, src ≠ dst ∧ FsOp.replace src dst ∈ ops

/-- Strings with distinct suffixes after a common prefix are distinct. -/
theorem append_ne_of_ne_suffix (s : String) {a b : String} (h : a ≠ b) :
    s ++ a ≠ s ++ b := by
  intro he
  apply h
  have hd : (s ++ a).data = (s ++ b).data := congrArg String.data he
  rw [String.data_append, String.data_append] at hd
  have := List.append_cancel_left hd
  cases a
  cases b
  exact congrArg String.mk this

/-- Claim C4 counterexample: the metadata artifact is not published atomically —
`meta_out.write_text` writes the final path directly, so the claim that every
artifact kind is published via a temporary path plus atomic rename is false. -/
theorem meta_not_atomic :
    ¬ publishedAtomically (metaWriteOps "cache/meta/idw_k2p0_cs500m_knn32.json")
      "cache/meta/idw_k2p0_cs500m_knn32.json" := by
  intro h
  exact h.1 (by simp [metaWriteOps])

/-- Claim C4 (amended): only the preview image artifact is generated through a
temporary path in the same directory followed by an atomic rename into its final
path; the metadata, region-table, summary, and raster artifacts are written
directly to their final paths with no temporary file and no rename. -/
theorem only_png_atomic (stem p₁ p₂ p₃ p₄ : String) :
    publishedAtomically (pngWriteOps stem) (stem ++ ".png") ∧
    ¬ publishedAtomically (metaWriteOps p₁) p₁ ∧
    ¬ publishedAtomically (csvWriteOps p₂) p₂ ∧
    ¬ publishedAtomically (regWriteOps p₃) p₃ ∧
    ¬ publishedAtomically (rasterWriteOps p₄) p₄ := by
  refine ⟨⟨?_, stem ++ ".tmp", append_ne_of_ne_suffix stem (by decide), by
    simp [pngWriteOps]⟩, ?_, ?_, ?_, ?_⟩
  · simp only [pngWriteOps, List.mem_cons, List.not_mem_nil, or_false]
    rintro (h | h)
    · exact absurd (FsOp.writeFile.inj h) (append_ne_of_ne_suffix stem (by decide))
    · exact FsOp.noConfusion h
  · intro h
    exact h.1 (by simp [metaWriteOps])
  · intro h
    exact h.1 (by simp [csvWriteOps])
  · intro h
    exact h.1 (by simp [regWriteOps])
  · intro h
    exact h.1 (by simp [rasterWriteOps])

/-- One cached artifact file: `ver` identifies the bytes and last-write
timestamp, `size` its byte size. -/
structure FileSt where
  ver : ℕ
  size : ℕ
  deriving DecidableEq, Repr

/-- The cache entries of one parameter key: preview PNG, metadata JSON, tract
CSV, regression JSON (`png_out`, `meta_out`, `csv_out`, `reg_out`). -/
structure CacheFS where
  png : Option FileSt
  meta : Option FileSt
  csv : Option FileSt
  reg : Option FileSt
  deriving DecidableEq, Repr

/-- Python test `path.stat().st_size == 0` on an existing file. -/
def sizeZero : Option FileSt → Bool
  | none => true
  | some f => f.size == 0

/-- The fast-path existence test of ensure_idw_outputs (pipeline.py line 101):
`(not want_png or png_out.exists()) and (not want_table or csv_out.exists())
and (not want_reg or reg_out.exists()) and meta_out.exists()`. -/
def fastPath (fs : CacheFS) (wantPng wantTable wantReg : Bool) : Bool :=
  (!wantPng || fs.png.isSome) && (!wantTable || fs.csv.isSome) &&
    (!wantReg || fs.reg.isSome) && fs.meta.isSome

/-- The PNG branch of ensure_idw_outputs (pipeline.py lines 150-180):
written only `if want_png and (not png_out.exists() or size == 0)`. -/
def pngStep (fs : CacheFS) (wantPng : Bool) (nf : FileSt) : CacheFS :=
  if wantPng && (!fs.png.isSome || sizeZero fs.png) then { fs with png := some nf }
  else fs

/-- State-level translation of `ensure_idw_outputs` (pipeline.py lines 89-180),
single-threaded view under the key lock: the fast path returns the filesystem
unchanged; otherwise the temporary raster is rebuilt, the metadata is written
unconditionally (lines 123-127), the tract CSV and regression JSON are written
when requested and missing/empty (lines 130-147, the regression raising when the
CSV is absent, line 141), and finally the PNG when requested and missing/empty.
`nf` stands for the freshly produced file (new bytes and timestamp). -/
def ensureModel (fs : CacheFS) (wantPng wantTable wantReg : Bool) (nf : FileSt) :
    Except String CacheFS :=
  if fastPath fs wantPng wantTable wantReg then Except.ok fs
  else
    let fs1 : CacheFS := { fs with meta := some nf }
    let fs2 : CacheFS :=
      if wantTable && (!fs1.csv.isSome || sizeZero fs1.csv) then
        { fs1 with csv := some nf }
      else fs1
    if wantReg && (!fs2.reg.isSome || sizeZero fs2.reg) then
      if fs2.csv.isSome then Except.ok (pngStep { fs2 with reg := some nf } wantPng nf)
      else Except.error "Missing tract CSV"
    else Except.ok (pngStep fs2 wantPng nf)

/-- Claim C9 (amended): re-running ensure-outputs for a fully published cache key
is a no-op — the filesystem state, hence every artifact's bytes and timestamp,
is returned unchanged. -/
theorem ensure_noop_when_published (fs : CacheFS) (wp wt wr : Bool) (nf : FileSt)
    (hpng : fs.png.isSome = true) (hcsv : fs.csv.isSome = true)
    (hreg : fs.reg.isSome = true) (hmeta : fs.meta.isSome = true) :
    ensureModel fs wp wt wr nf = Except.ok fs := by
  have hfp : fastPath fs wp wt wr = true := by
    simp [fastPath, hpng, hcsv, hreg, hmeta]
  simp [ensureModel, hfp]

/-- Concrete witness for `ensure_noop_when_published`. -/
theorem ensure_noop_when_published_witness :
    ((some (⟨1, 4⟩ : FileSt)).isSome = true) ∧
    ensureModel ⟨some ⟨1, 4⟩, some ⟨2, 4⟩, some ⟨3, 4⟩, some ⟨4, 4⟩⟩ true true true
      ⟨9, 9⟩ = Except.ok ⟨some ⟨1, 4⟩, some ⟨2, 4⟩, some ⟨3, 4⟩, some ⟨4, 4⟩⟩ :=
  ⟨rfl, ensure_noop_when_published _ true true true _ rfl rfl rfl rfl⟩

/-- Claim C9 counterexample: with the metadata published but the requested PNG
missing, ensure-outputs rewrites the published metadata file in place (fresh
bytes/timestamp version 9 replaces version 7), so the cache tree is not
append-only per key and published artifacts can be mutated. -/
theorem ensure_mutates_published_meta :
    (CacheFS.meta ⟨none, some ⟨7, 5⟩, some ⟨1, 1⟩, some ⟨2, 1⟩⟩).isSome = true ∧
    ensureModel ⟨none, some ⟨7, 5⟩, some ⟨1, 1⟩, some ⟨2, 1⟩⟩ true false false ⟨9, 3⟩ =
      Except.ok ⟨some ⟨9, 3⟩, some ⟨9, 3⟩, some ⟨1, 1⟩, some ⟨2, 1⟩⟩ ∧
    some (⟨9, 3⟩ : FileSt) ≠ some (⟨7, 5⟩ : FileSt) := by
  refine ⟨rfl, ?_, by decide⟩
  rfl

/-! ## Zonal aggregation (tract_nitrate_table.py, main, lines 105-138) -/

/-- A region polygon modelled as an axis-aligned rectangle in the raster's
coordinate system (sufficient to express the rasterization semantics on the
grid). -/
structure RectGeom where
  gminx : ℚ
  gminy : ℚ
  gmaxx : ℚ
  gmaxy : ℚ
  deriving DecidableEq, Repr

/-- Point-in-geometry test for the rectangle model (closed rectangle). -/
def rectContains (R : RectGeom) (p : ℚ × ℚ) : Prop :=
  R.gminx ≤ p.1 ∧ p.1 ≤ R.gmaxx ∧ R.gminy ≤ p.2 ∧ p.2 ≤ R.gmaxy

instance (R : RectGeom) (p : ℚ × ℚ) : Decidable (rectContains R p) := by
  unfold rectContains
  infer_instance

/-- The geometry meets the raster cell `[cminx, cmaxx] × [cminy, cmaxy]`
(non-empty overlap of closed rectangles): the cell is partially covered or
edge-touched by the region. -/
def cellIntersects (R : RectGeom) (cminx cminy cmaxx cmaxy : ℚ) : Prop :=
  R.gminx ≤ cmaxx ∧ cminx ≤ R.gmaxx ∧ R.gminy ≤ cmaxy ∧ cminy ≤ R.gmaxy

instance (R : RectGeom) (a b c d : ℚ) : Decidable (cellIntersects R a b c d) := by
  unfold cellIntersects
  infer_instance

/-- Center of grid cell (row, col) for the `from_origin(minx, maxy, cell, cell)`
transform used by the pipeline. -/
def cellCenter (minx maxy cell : ℚ) (r c : ℕ) : ℚ × ℚ :=
  (minx + ((c : ℚ) + 1 / 2) * cell, maxy - ((r : ℚ) + 1 / 2) * cell)

/-- Value burned into one cell by `rasterio.features.rasterize(shapes, ...,
fill=0, all_touched=False)` (tract_nitrate_table.py lines 111-118): with
`all_touched=False` a geometry is burned into exactly the cells whose CENTER
lies inside it (GDAL's documented default), geometries burned in order with
later ones overwriting, and `fill=0` elsewhere. -/
def rasterizeCell (shapes : List (RectGeom × ℤ)) (center : ℚ × ℚ) : ℤ :=
  shapes.foldl (fun acc s => if rectContains s.1 center then s.2 else acc) 0

/-- Claim C5 (code bug evidence): the region rectangle `[0, 1/4] × [0, 1/4]`
partially covers (edge-touches) the single grid cell `[0,1] × [0,1]` of a
one-cell grid (origin (0,1), cell size 1), yet with `all_touched=False` —
annotated in the source as `# edge cells included` — the cell's center (1/2, 1/2)
is outside the region, so the cell is left unassigned (zone 0), contradicting
the claim that partially covered or edge-touching cells are assigned to the
region. -/
theorem rasterize_excludes_partial_cell :
    cellIntersects (RectGeom.mk 0 0 (1 / 4) (1 / 4)) 0 0 1 1 ∧
    rasterizeCell [(RectGeom.mk 0 0 (1 / 4) (1 / 4), 1)] (cellCenter 0 1 1 0 0) = 0 := by
  constructor
  · refine ⟨by norm_num, by norm_num, by norm_num, by norm_num⟩
  · have hc : cellCenter 0 1 1 0 0 = (1 / 2, 1 / 2) := by
      unfold cellCenter
      norm_num
    rw [hc]
    unfold rasterizeCell
    simp only [List.foldl_cons, List.foldl_nil]
    rw [if_neg]
    intro h
    have := h.2.1
    norm_num at this

/-- The valid cells of the zonal pass (tract_nitrate_table.py lines 121-127):
row-major flattened (zone, nitrate) pairs where the zone is assigned (`zones >
0`) and the nitrate value is not the no-data sentinel (`nitrate != nodata`; the
`isfinite` clause is vacuous in the exact-rational model). -/
def validCells (zones : List (List ℤ)) (nit : List (List ℚ)) (nodata : ℚ) :
    List (ℤ × ℚ) :=
  (zones.flatten.zip nit.flatten).filter fun p => 0 < p.1 ∧ p.2 ≠ nodata

/-- Per-zone (count, sum) accumulation over the valid cells, the single linear
pass `np.bincount(z, weights=v)` / `np.bincount(z)` performs
(tract_nitrate_table.py lines 129-132). -/
def zstats (pairs : List (ℤ × ℚ)) : ℤ → ℕ × ℚ :=
  pairs.foldl
    (fun acc p z => if z = p.1 then ((acc z).1 + 1, (acc z).2 + p.2) else acc z)
    fun _ => (0, 0)

/-- The region table (tract_nitrate_table.py lines 105-138, 166): tract `i` gets
zone id `i+1` (`np.arange(1, n+1)`); `means` is NaN (modelled `none`) where the
count is zero, `sums/counts` elsewhere; the CSV row is
`(GEOID10, canrate, mean_nitrate)`. -/
def tractTable (tracts : List (String × ℚ)) (zones : List (List ℤ))
    (nit : List (List ℚ)) (nodata : ℚ) : List (String × ℚ × Option ℚ) :=
  (List.range tracts.length).map fun i =>
    let t := tracts.getD i ("", 0)
    let s := zstats (validCells zones nit nodata) ((i : ℤ) + 1)
    (t.1, t.2, if s.1 = 0 then none else some (s.2 / (s.1 : ℚ)))

/-- The fold in `zstats` computes, for every zone, the count and sum of the
matching pairs. -/
theorem zstats_spec (pairs : List (ℤ × ℚ)) (z : ℤ) :
    (zstats pairs z).1 = (pairs.filter fun p => p.1 = z).length ∧
    (zstats pairs z).2 = ((pairs.filter fun p => p.1 = z).map Prod.snd).sum := by
  suffices h : ∀ (l : List (ℤ × ℚ)) (acc : ℤ → ℕ × ℚ),
      (l.foldl
        (fun acc p z => if z = p.1 then ((acc z).1 + 1, (acc z).2 + p.2) else acc z)
        acc) z =
      ((acc z).1 + (l.filter fun p => p.1 = z).length,
        (acc z).2 + ((l.filter fun p => p.1 = z).map Prod.snd).sum) by
    have := h pairs (fun _ => (0, 0))
    unfold zstats
    rw [this]
    constructor <;> simp
  intro l
  induction l with
  | nil =>
    intro acc
    simp
  | cons p rest ih =>
    intro acc
    rw [List.foldl_cons, ih]
    by_cases hz : p.1 = z
    · have hz2 : z = p.1 := hz.symm
      rw [List.filter_cons_of_pos (by simp [hz]), List.length_cons,
        List.map_cons, List.sum_cons]
      simp only [if_pos hz2]
      rw [Prod.mk.injEq]
      constructor
      · omega
      · ring
    · have hz2 : ¬ z = p.1 := fun h => hz h.symm
      rw [List.filter_cons_of_neg (by simp [hz])]
      simp only [if_neg hz2]

/-- Claim C6: every region in the input yields a row of the region table with
its identifier and external attribute present; a region overlapping at least one
valid (assigned, non-sentinel) cell gets mean = sum of those cells' values
divided by their count, and a region overlapping zero valid cells gets a missing
mean (`none`), never 0.0. -/
theorem tract_table_rows (tracts : List (String × ℚ)) (zones : List (List ℤ))
    (nit : List (List ℚ)) (nodata : ℚ) (i : ℕ) (hi : i < tracts.length) :
    (tractTable tracts zones nit nodata).length = tracts.length ∧
    ((tractTable tracts zones nit nodata).getD i ("", 0, none)).1 =
      (tracts.getD i ("", 0)).1 ∧
    ((tractTable tracts zones nit nodata).getD i ("", 0, none)).2.1 =
      (tracts.getD i ("", 0)).2 ∧
    ((tractTable tracts zones nit nodata).getD i ("", 0, none)).2.2 =
      (if ((validCells zones nit nodata).filter fun p => p.1 = (i : ℤ) + 1) = []
       then none
       else some
        ((((validCells zones nit nodata).filter fun p => p.1 = (i : ℤ) + 1).map
            Prod.snd).sum /
          ((((validCells zones nit nodata).filter
              fun p => p.1 = (i : ℤ) + 1).length : ℚ)))) := by
  have hlen : (tractTable tracts zones nit nodata).length = tracts.length := by
    simp [tractTable]
  have hget : (tractTable tracts zones nit nodata).getD i ("", 0, none) =
      ((tracts.getD i ("", 0)).1, (tracts.getD i ("", 0)).2,
        if (zstats (validCells zones nit nodata) ((i : ℤ) + 1)).1 = 0 then none
        else some ((zstats (validCells zones nit nodata) ((i : ℤ) + 1)).2 /
          ((zstats (validCells zones nit nodata) ((i : ℤ) + 1)).1 : ℚ))) := by
    rw [List.getD_eq_getElem _ _ (by rw [hlen]; exact hi)]
    simp [tractTable]
  obtain ⟨hc, hs⟩ := zstats_spec (validCells zones nit nodata) ((i : ℤ) + 1)
  have hzs : zstats (validCells zones nit nodata) ((i : ℤ) + 1) =
      (((validCells zones nit nodata).filter fun p => p.1 = (i : ℤ) + 1).length,
        (((validCells zones nit nodata).filter fun p => p.1 = (i : ℤ) + 1).map
          Prod.snd).sum) := Prod.ext hc hs
  refine ⟨hlen, by rw [hget], by rw [hget], ?_⟩
  rw [hget]
  simp only [hzs]
  by_cases hemp : ((validCells zones nit nodata).filter
      fun p => p.1 = (i : ℤ) + 1) = []
  · rw [if_pos (by rw [hemp]; rfl), if_pos hemp]
  · rw [if_neg (by
      intro h
      exact hemp (List.length_eq_zero.mp h)), if_neg hemp]

/-- Concrete witness for `tract_table_rows`: two regions over a one-row raster;
region B (zone 2) overlaps no valid cell, so its row is ("B", 2, missing). -/
theorem tract_table_rows_witness :
    (1 < ([("A", (1 : ℚ)), ("B", 2)]).length) ∧
    ((tractTable [("A", (1 : ℚ)), ("B", 2)] [[1, 0]] [[5, 7]] (-9999)).length =
      ([("A", (1 : ℚ)), ("B", 2)]).length ∧
    ((tractTable [("A", (1 : ℚ)), ("B", 2)] [[1, 0]] [[5, 7]]
        (-9999)).getD 1 ("", 0, none)).1 =
      (([("A", (1 : ℚ)), ("B", 2)]).getD 1 ("", 0)).1 ∧
    ((tractTable [("A", (1 : ℚ)), ("B", 2)] [[1, 0]] [[5, 7]]
        (-9999)).getD 1 ("", 0, none)).2.1 =
      (([("A", (1 : ℚ)), ("B", 2)]).getD 1 ("", 0)).2 ∧
    ((tractTable [("A", (1 : ℚ)), ("B", 2)] [[1, 0]] [[5, 7]]
        (-9999)).getD 1 ("", 0, none)).2.2 =
      (if ((validCells [[1, 0]] [[5, 7]] (-9999)).filter
            fun p => p.1 = ((1 : ℕ) : ℤ) + 1) = []
       then none
       else some
        ((((validCells [[1, 0]] [[5, 7]] (-9999)).filter
            fun p => p.1 = ((1 : ℕ) : ℤ) + 1).map Prod.snd).sum /
          ((((validCells [[1, 0]] [[5, 7]] (-9999)).filter
              fun p => p.1 = ((1 : ℕ) : ℤ) + 1).length : ℚ))))) :=
  ⟨by norm_num, tract_table_rows [("A", (1 : ℚ)), ("B", 2)] [[1, 0]] [[5, 7]]
    (-9999) 1 (by norm_num)⟩

/-! ## Precondition validation and HTTP surfacing (idw_preview.py main lines
132-142; app.py api_regression lines 42-66) -/

/-- Errors the IDW script can raise before computing. -/
inductive IdwErr where
  | badK
  | badCell
  | badKnn
  | wellsMissing
  | tractsMissing
  deriving DecidableEq, Repr

/-- Translation of the validation prefix of `main` in idw_preview.py (lines
132-142): `k <= 1.0`, `cell <= 0`, `knn < 1` each raise ValueError, in that
order, strictly before the shapefile existence checks and the dataset reads;
the second component records the dataset reads performed (lines 147-148),
empty whenever the prefix fails. -/
def idwMainPrefix (k cell : ℚ) (knn : ℤ) (wellsOk tractsOk : Bool) :
    Except IdwErr Unit × List String :=
  if k ≤ 1 then (Except.error IdwErr.badK, [])
  else if cell ≤ 0 then (Except.error IdwErr.badCell, [])
  else if knn < 1 then (Except.error IdwErr.badKnn, [])
  else if !wellsOk then (Except.error IdwErr.wellsMissing, [])
  else if !tractsOk then (Except.error IdwErr.tractsMissing, [])
  else (Except.ok (), ["read wells", "read tracts"])

/-- HTTP-level outcome of one request. -/
inductive ApiResp where
  | ok
  | badRequest
  | serverError
  deriving DecidableEq, Repr

/-- Translation of `api_regression` (app.py lines 42-66), which checks only
`k <= 1` and returns a structured 400 for it before calling the pipeline.
Modelled from the spec: `run_idw` — imported by app.py from the pipeline module
but absent from pipeline.py in this snapshot — invokes the IDW script for the
cache key and propagates the script's failure; app.py installs no exception
handling, so a script failure (ValueError via subprocess.check_call) surfaces
as an unhandled 5xx server error, not a structured 4xx. -/
def api_regression_model (k cell : ℚ) (knn : ℤ) (wellsOk tractsOk : Bool) :
    ApiResp :=
  if k ≤ 1 then ApiResp.badRequest
  else
    match (idwMainPrefix k cell knn wellsOk tractsOk).1 with
    | Except.error _ => ApiResp.serverError
    | Except.ok _ => ApiResp.ok

/-- Claim C8 counterexample: the tuple `k=2, cell=0, knn=32` violates the
cell-size precondition, yet the HTTP layer surfaces it as an unhandled server
error (5xx), not as a structured 4xx-equivalent condition. -/
theorem api_cell_precondition_not_4xx :
    api_regression_model 2 0 32 true true = ApiResp.serverError ∧
    ApiResp.serverError ≠ ApiResp.badRequest := by
  constructor
  · norm_num [api_regression_model, idwMainPrefix]
  · decide

/-- Claim C8 (amended): every parameter tuple with `k ≤ 1`, `cell ≤ 0` or
`knn < 1` is rejected by the analysis script before any dataset read (an error
with an empty I/O trace), but only the `k ≤ 1` violation is surfaced by the
HTTP layer as a structured 4xx; `cell ≤ 0` and `knn < 1` propagate as unhandled
5xx generation failures. -/
theorem precondition_fail_fast (k cell : ℚ) (knn : ℤ) (wellsOk tractsOk : Bool)
    (hbad : k ≤ 1 ∨ cell ≤ 0 ∨ knn < 1) :
    (∃ e, idwMainPrefix k cell knn wellsOk tractsOk = (Except.error e, [])) ∧
    (idwMainPrefix k cell knn wellsOk tractsOk).2 = [] ∧
    (k ≤ 1 →
      api_regression_model k cell knn wellsOk tractsOk = ApiResp.badRequest) ∧
    (¬ k ≤ 1 →
      api_regression_model k cell knn wellsOk tractsOk = ApiResp.serverError) := by
  by_cases h1 : k ≤ 1
  · exact ⟨⟨IdwErr.badK, by simp [idwMainPrefix, h1]⟩,
      by simp [idwMainPrefix, h1],
      fun _ => by simp [api_regression_model, h1],
      fun h => absurd h1 h⟩
  · have hrest : cell ≤ 0 ∨ knn < 1 := hbad.resolve_left h1
    by_cases h2 : cell ≤ 0
    · exact ⟨⟨IdwErr.badCell, by simp [idwMainPrefix, h1, h2]⟩,
        by simp [idwMainPrefix, h1, h2],
        fun hk => absurd hk h1,
        fun _ => by simp [api_regression_model, idwMainPrefix, h1, h2]⟩
    · have h3 : knn < 1 := hrest.resolve_left h2
      exact ⟨⟨IdwErr.badKnn, by simp [idwMainPrefix, h1, h2, h3]⟩,
        by simp [idwMainPrefix, h1, h2, h3],
        fun hk => absurd hk h1,
        fun _ => by simp [api_regression_model, idwMainPrefix, h1, h2, h3]⟩

/-- Concrete witness for `precondition_fail_fast` at `k=2, cell=0, knn=32`. -/
theorem precondition_fail_fast_witness :
    ((2 : ℚ) ≤ 1 ∨ (0 : ℚ) ≤ 0 ∨ (32 : ℤ) < 1) ∧
    ((∃ e, idwMainPrefix 2 0 32 true true = (Except.error e, [])) ∧
     (idwMainPrefix 2 0 32 true true).2 = [] ∧
     ((2 : ℚ) ≤ 1 →
       api_regression_model 2 0 32 true true = ApiResp.badRequest) ∧
     (¬ (2 : ℚ) ≤ 1 →
       api_regression_model 2 0 32 true true = ApiResp.serverError)) :=
  ⟨Or.inr (Or.inl (by norm_num)),
    precondition_fail_fast 2 0 32 true true (Or.inr (Or.inl (by norm_num)))⟩

/-! ## Concurrent generation (pipeline.py: ensure_idw_outputs lines 98-102 under
the key lock; run_table / run_regression lines 64-86 without it) -/

/-- Program counter of one concurrent `ensure_idw_outputs` caller. -/
inductive EPC where
  | start
  | checking
  | generating
  | unlocking
  | done
  deriving DecidableEq, Repr

/-- Shared state of `n` concurrent `ensure_idw_outputs` calls on one new cache
key: the key-scoped `FileLock` holder, each caller's position, whether the key's
artifacts are published, and how many generation passes have run. -/
structure EnsureSt (n : ℕ) where
  lock : Option (Fin n)
  pc : Fin n → EPC
  pub : Bool
  gen : ℕ

/-- Interleaving semantics of `ensure_idw_outputs` (pipeline.py lines 98-180):
acquire the key lock only when free (line 98-99, blocking); under the lock
re-check artifact existence (line 101) and return when published; otherwise run
the generation pass (lines 104-180), which publishes; release on block exit. -/
inductive EnsureStep (n : ℕ) : EnsureSt n → EnsureSt n → Prop where
  | acquire (sp : EnsureSt n) (i : Fin n) (hl : sp.lock = none)
      (hpc : sp.pc i = EPC.start) :
      EnsureStep n sp ⟨some i, Function.update sp.pc i EPC.checking, sp.pub, sp.gen⟩
  | observe_hit (sp : EnsureSt n) (i : Fin n) (hl : sp.lock = some i)
      (hpc : sp.pc i = EPC.checking) (hpub : sp.pub = true) :
      EnsureStep n sp ⟨sp.lock, Function.update sp.pc i EPC.unlocking, sp.pub, sp.gen⟩
  | observe_miss (sp : EnsureSt n) (i : Fin n) (hl : sp.lock = some i)
      (hpc : sp.pc i = EPC.checking) (hpub : sp.pub = false) :
      EnsureStep n sp ⟨sp.lock, Function.update sp.pc i EPC.generating, sp.pub, sp.gen⟩
  | generate (sp : EnsureSt n) (i : Fin n) (hl : sp.lock = some i)
      (hpc : sp.pc i = EPC.generating) :
      EnsureStep n sp ⟨sp.lock, Function.update sp.pc i EPC.unlocking, true, sp.gen + 1⟩
  | release (sp : EnsureSt n) (i : Fin n) (hl : sp.lock = some i)
      (hpc : sp.pc i = EPC.unlocking) :
      EnsureStep n sp ⟨none, Function.update sp.pc i EPC.done, sp.pub, sp.gen⟩

/-- Initial state: lock free, all callers at start, key unpublished. -/
def ensureInit (n : ℕ) : EnsureSt n := ⟨none, fun _ => EPC.start, false, 0⟩

/-- Reachable states of the concurrent ensure system. -/
inductive EnsureReach (n : ℕ) : EnsureSt n → Prop where
  | init : EnsureReach n (ensureInit n)
  | step {s t : EnsureSt n} : EnsureReach n s → EnsureStep n s t → EnsureReach n t

/-- Inductive invariant: the generation counter matches publication, every
caller inside the critical section holds the lock, a caller about to generate
has observed the key unpublished, and any caller past its critical work implies
the key is published. -/
def EnsureInv (n : ℕ) (s : EnsureSt n) : Prop :=
  (s.gen = if s.pub then 1 else 0) ∧
  (∀ i, (s.pc i = EPC.checking ∨ s.pc i = EPC.generating ∨
      s.pc i = EPC.unlocking) → s.lock = some i) ∧
  (∀ i, s.pc i = EPC.generating → s.pub = false) ∧
  ((∃ i, s.pc i = EPC.unlocking ∨ s.pc i = EPC.done) → s.pub = true)

/-- The invariant is preserved by every step. -/
theorem ensure_inv_step (n : ℕ) {s t : EnsureSt n} (hstep : EnsureStep n s t)
    (ih : EnsureInv n s) : EnsureInv n t := by
  obtain ⟨ih1, ih2, ih3, ih4⟩ := ih
  cases hstep with
  | acquire i hl hpc =>
    refine ⟨ih1, ?_, ?_, ?_⟩
    · intro j hj
      by_cases hij : j = i
      · subst hij
        rfl
      · simp only [Function.update_noteq hij] at hj
        have := ih2 j hj
        rw [hl] at this
        exact absurd this (by simp)
    · intro j hj
      by_cases hij : j = i
      · subst hij
        simp only [Function.update_same] at hj
        exact absurd hj (by decide)
      · simp only [Function.update_noteq hij] at hj
        exact ih3 j hj
    · rintro ⟨j, hj⟩
      by_cases hij : j = i
      · subst hij
        simp only [Function.update_same] at hj
        rcases hj with hj | hj <;> exact absurd hj (by decide)
      · simp only [Function.update_noteq hij] at hj
        exact ih4 ⟨j, hj⟩
  | observe_hit i hl hpc hpub =>
    refine ⟨ih1, ?_, ?_, fun _ => hpub⟩
    · intro j hj
      by_cases hij : j = i
      · subst hij
        exact hl
      · simp only [Function.update_noteq hij] at hj
        exact ih2 j hj
    · intro j hj
      by_cases hij : j = i
      · subst hij
        simp only [Function.update_same] at hj
        exact absurd hj (by decide)
      · simp only [Function.update_noteq hij] at hj
        exact ih3 j hj
  | observe_miss i hl hpc hpub =>
    refine ⟨ih1, ?_, ?_, ?_⟩
    · intro j hj
      by_cases hij : j = i
      · subst hij
        exact hl
      · simp only [Function.update_noteq hij] at hj
        exact ih2 j hj
    · intro j hj
      exact hpub
    · rintro ⟨j, hj⟩
      by_cases hij : j = i
      · subst hij
        simp only [Function.update_same] at hj
        rcases hj with hj | hj <;> exact absurd hj (by decide)
      · simp only [Function.update_noteq hij] at hj
        exact ih4 ⟨j, hj⟩
  | generate i hl hpc =>
    refine ⟨?_, ?_, ?_, fun _ => rfl⟩
    · have hpubf : s.pub = false := ih3 i hpc
      have hg : s.gen = 0 := by
        rw [ih1, hpubf]
        rfl
      simp [hg]
    · intro j hj
      by_cases hij : j = i
      · subst hij
        exact hl
      · simp only [Function.update_noteq hij] at hj
        exact ih2 j hj
    · intro j hj
      by_cases hij : j = i
      · subst hij
        simp only [Function.update_same] at hj
        exact absurd hj (by decide)
      · simp only [Function.update_noteq hij] at hj
        have := ih2 j (Or.inr (Or.inl hj))
        rw [hl] at this
        exact absurd (Option.some.inj this).symm hij
  | release i hl hpc =>
    refine ⟨ih1, ?_, ?_, fun _ => ih4 ⟨i, Or.inl hpc⟩⟩
    · intro j hj
      by_cases hij : j = i
      · subst hij
        simp only [Function.update_same] at hj
        rcases hj with hj | hj | hj <;> exact absurd hj (by decide)
      · simp only [Function.update_noteq hij] at hj
        have := ih2 j hj
        rw [hl] at this
        exact absurd (Option.some.inj this).symm hij
    · intro j hj
      by_cases hij : j = i
      · subst hij
        simp only [Function.update_same] at hj
        exact absurd hj (by decide)
      · simp only [Function.update_noteq hij] at hj
        exact ih3 j hj

/-- The invariant holds in every reachable state. -/
theorem ensure_inv (n : ℕ) (s : EnsureSt n) (h : EnsureReach n s) :
    EnsureInv n s := by
  induction h with
  | init =>
    refine ⟨rfl, ?_, ?_, ?_⟩
    · intro i hi
      rcases hi with h | h | h <;> simp [ensureInit] at h
    · intro i hi
      simp [ensureInit] at hi
    · rintro ⟨i, hi | hi⟩ <;> simp [ensureInit] at hi
  | step hr hstep ih =>
    exact ensure_inv_step _ hstep ih

/-- Claim C1 (amended, locked path): for requests served through
`ensure_idw_outputs`, generation runs only while holding the single key-scoped
lock with existence re-checked after acquisition, so in every execution of
`n ≥ 1` concurrent calls on a new cache key in which all callers finish, exactly
one generation pass has run. -/
theorem ensure_exactly_once (n : ℕ) (hn : 1 ≤ n) (s : EnsureSt n)
    (h : EnsureReach n s) (hdone : ∀ i, s.pc i = EPC.done) : s.gen = 1 := by
  obtain ⟨ih1, ih2, ih3, ih4⟩ := ensure_inv n s h
  have hpub : s.pub = true := ih4 ⟨⟨0, by omega⟩, Or.inr (hdone _)⟩
  rw [ih1, hpub]
  rfl

/-- Concrete witness for `ensure_exactly_once`: a single caller acquires the
lock, observes the key unpublished, generates, and releases; the final state has
one generation pass. -/
theorem ensure_exactly_once_witness :
    (1 ≤ 1) ∧
    EnsureSt.gen (n := 1) ⟨none, fun _ => EPC.done, true, 1⟩ = 1 := by
  refine ⟨le_refl 1, ?_⟩
  have h0 : EnsureReach 1 (ensureInit 1) := EnsureReach.init
  have h1 := EnsureReach.step h0 (EnsureStep.acquire (ensureInit 1) 0 rfl rfl)
  have h2 := EnsureReach.step h1
    (EnsureStep.observe_miss _ 0 rfl (by simp) rfl)
  have h3 := EnsureReach.step h2 (EnsureStep.generate _ 0 rfl (by simp))
  have h4 := EnsureReach.step h3 (EnsureStep.release _ 0 rfl (by simp))
  have hfun : Function.update (Function.update (Function.update
      (Function.update (fun _ : Fin 1 => EPC.start) 0 EPC.checking) 0
        EPC.generating) 0 EPC.unlocking) 0 EPC.done = fun _ : Fin 1 => EPC.done := by
    funext j
    fin_cases j
    simp
  have h5 : EnsureReach 1 ⟨none, fun _ => EPC.done, true, 1⟩ := by
    rw [show (⟨none, fun _ => EPC.done, true, 1⟩ : EnsureSt 1) =
        ⟨none, Function.update (Function.update (Function.update
          (Function.update (fun _ : Fin 1 => EPC.start) 0 EPC.checking) 0
            EPC.generating) 0 EPC.unlocking) 0 EPC.done, true, 0 + 1⟩ by
      rw [hfun]]
    exact h4
  exact ensure_exactly_once 1 (le_refl 1) _ h5 (fun i => rfl)

/-- Program counter of one concurrent `run_table` caller. -/
inductive TPC where
  | start
  | making
  | done
  deriving DecidableEq, Repr

/-- Shared state of `n` concurrent `run_table` calls on one new cache key. -/
structure TableSt (n : ℕ) where
  pc : Fin n → TPC
  pub : Bool
  gen : ℕ

/-- Interleaving semantics of `run_table` (pipeline.py lines 64-74), which is
called directly by the API endpoints: the caller checks `out.exists()` WITHOUT
taking any lock (line 67), returns when present, and otherwise runs the
generation subprocess (lines 69-71), which publishes the CSV. -/
inductive TableStep (n : ℕ) : TableSt n → TableSt n → Prop where
  | check_hit (sp : TableSt n) (i : Fin n) (hpc : sp.pc i = TPC.start)
      (hpub : sp.pub = true) :
      TableStep n sp ⟨Function.update sp.pc i TPC.done, sp.pub, sp.gen⟩
  | check_miss (sp : TableSt n) (i : Fin n) (hpc : sp.pc i = TPC.start)
      (hpub : sp.pub = false) :
      TableStep n sp ⟨Function.update sp.pc i TPC.making, sp.pub, sp.gen⟩
  | make (sp : TableSt n) (i : Fin n) (hpc : sp.pc i = TPC.making) :
      TableStep n sp ⟨Function.update sp.pc i TPC.done, true, sp.gen + 1⟩

/-- Reachable states of the concurrent run_table system, from the state where
nothing is published and every caller is about to check. -/
inductive TableReach (n : ℕ) : TableSt n → Prop where
  | init : TableReach n ⟨fun _ => TPC.start, false, 0⟩
  | step {s t : TableSt n} : TableReach n s → TableStep n s t → TableReach n t

/-- Claim C1 counterexample: `run_table` generates the table artifact with no
lock held, so two concurrent requests for the same new cache key can both pass
the bare existence check and both run the generation subprocess — a reachable
final state with both callers finished and TWO generation passes, refuting
"exactly one underlying generation pass" and "generation … only while holding
the key-scoped lock". -/
theorem run_table_duplicate_generation :
    TableReach 2 ⟨fun _ => TPC.done, true, 2⟩ ∧ (2 : ℕ) ≠ 1 := by
  refine ⟨?_, by decide⟩
  have h0 : TableReach 2 ⟨fun _ => TPC.start, false, 0⟩ := TableReach.init
  have h1 := TableReach.step h0 (TableStep.check_miss _ 0 rfl rfl)
  have h2 := TableReach.step h1 (TableStep.check_miss _ 1 (by simp) rfl)
  have h3 := TableReach.step h2 (TableStep.make _ 0 (by simp))
  have h4 := TableReach.step h3 (TableStep.make _ 1 (by simp))
  have hfun : Function.update (Function.update (Function.update
      (Function.update (fun _ : Fin 2 => TPC.start) 0 TPC.making) 1 TPC.making)
        0 TPC.done) 1 TPC.done = fun _ : Fin 2 => TPC.done := by
    funext j
    fin_cases j <;> simp
  rw [show (⟨fun _ => TPC.done, true, 2⟩ : TableSt 2) =
      ⟨Function.update (Function.update (Function.update
        (Function.update (fun _ : Fin 2 => TPC.start) 0 TPC.making) 1 TPC.making)
          0 TPC.done) 1 TPC.done, true, 0 + 1 + 1⟩ by rw [hfun]]
  exact h4
